import Mathlib

/-
Verification of livekit-plugins-dashscope.

Shallow embedding of the pure parts of the plugin:
  * src/livekit/plugins/dashscope/sentence_tokenizer.py (ChineseSentenceTokenizer)
  * src/livekit/plugins/dashscope/word_tokenizer.py (ChineseWordTokenizer)
  * src/livekit/plugins/dashscope/tts.py, tts_v2_queue.py (constructor validation,
    and a transition system for the streaming coordinator of tts_v2_queue.py)

Python strings are modelled as `List Char` (a sequence of Unicode scalar values).
-/

/-- Characters for which the Python predicate str.isspace() is true; the same set
is stripped by str.strip(), str.lstrip() and str.rstrip() with no argument. -/
def pythonWhitespace : List Char :=
  ['\t', '\n', '\x0b', '\x0c', '\r', '\x1c', '\x1d', '\x1e', '\x1f', ' ',
   '\x85', '\xa0', ' ', ' ', ' ', ' ', ' ', ' ',
   ' ', ' ', ' ', ' ', ' ', ' ', ' ',
   ' ', ' ', ' ', '　']

/-- Python char.isspace() for a single character. -/
def pyIsSpace (c : Char) : Bool := pythonWhitespace.contains c

/-- Python str.lstrip(): drop leading whitespace. -/
def pyLstrip (s : List Char) : List Char := s.dropWhile pyIsSpace

/-- Python str.rstrip(): drop trailing whitespace. -/
def pyRstrip (s : List Char) : List Char := (s.reverse.dropWhile pyIsSpace).reverse

/-- Python str.strip(): drop leading and trailing whitespace. -/
def pyStrip (s : List Char) : List Char := pyRstrip (pyLstrip s)

/-- Python slice text[s:e] for 0 <= s <= e <= len(text). -/
def pySlice (l : List Char) (s e : Nat) : List Char := (l.drop s).take (e - s)

/-
ChineseSentenceTokenizer (sentence_tokenizer.py).

Configuration built in __init__ (lines 37-42):
  sentence_ends = ['。', '！', '？', '…', '；', '.', '!', '?', '...', ';']
  quote_pairs   = {'"': '"', '"': '"', '「': '」', '『': '』'}
In the source file both keys of the first two dict entries are the plain
ASCII double quote U+0022 (not curly quotes), so the Python dict literal has a
duplicated key and the resulting dict holds three entries.  The curly quotes
U+201C / U+201D are therefore not tracked at all.
-/

/-- sentence_ends list.  Entries are Python strings; the three-character entry
"..." can never equal a single character, so it is inert in the per-character
membership test `char in self._config.sentence_ends`. -/
def sentence_ends : List (List Char) :=
  [['。'], ['！'], ['？'], ['…'], ['；'], ['.'], ['!'], ['?'],
   ['.', '.', '.'], [';']]

/-- The per-character test `char in self._config.sentence_ends`. -/
def isSentenceEnd (c : Char) : Bool := sentence_ends.contains [c]

/-- quote_pairs after Python dict-literal evaluation (the duplicated key '"'
collapses; both occurrences map '"' to '"'). -/
def quote_pairs : List (Char × Char) :=
  [('"', '"'), ('「', '」'), ('『', '』')]

/-- quote_pairs.keys(). -/
def quoteKeys : List Char := quote_pairs.map Prod.fst

/-- quote_pairs.values(). -/
def quoteValues : List Char := quote_pairs.map Prod.snd

/-- Dict lookup quote_pairs[c]. -/
def quoteLookup (c : Char) : Option Char :=
  (quote_pairs.find? (fun p => p.1 = c)).map Prod.snd

/-- One iteration of the quote handling in _split_sentences (lines 60-65) and
_is_sentence_complete (lines 105-111).  The top of the Python list-stack is
kept at the head here.  Note the ASCII '"' is both a key and a value, and the
`elif` means it is always pushed and never pops. -/
def quoteUpdate (stack : List Char) (c : Char) : List Char :=
  if quoteKeys.contains c then c :: stack
  else if quoteValues.contains c then
    match stack with
    | [] => []
    | top :: rest => if quoteLookup top = some c then rest else top :: rest
  else stack

/-- The loop of _split_sentences (lines 57-75): `stack` is quote_stack, `cur`
is current_sentence, the third argument is the remaining input. -/
def splitSentencesGo : List Char → List Char → List Char → List (List Char)
  | _, cur, [] => if pyStrip cur ≠ [] then [pyStrip cur] else []
  | stack, cur, c :: rest =>
    let cur' := cur ++ [c]
    let stack' := quoteUpdate stack c
    if isSentenceEnd c ∧ stack' = [] then
      (if pyStrip cur' ≠ [] then [pyStrip cur'] else []) ++
        splitSentencesGo stack' [] rest
    else
      splitSentencesGo stack' cur' rest

/-- ChineseSentenceTokenizer._split_sentences (lines 48-77). -/
def split_sentences (text : List Char) : List (List Char) :=
  if text = [] then [] else splitSentencesGo [] [] text

/-- The merge loop of ChineseSentenceTokenizer.tokenize (lines 84-93):
`buff` accumulates raw sentences each followed by one space; a group is
emitted (right-stripped) once `len(buff) - 1 >= min_sentence_len`, and a
non-empty leftover is emitted at the end.  min_sentence_len is a Python int,
modelled as `Int`. -/
def mergeGo (minLen : Int) : List Char → List (List Char) → List (List Char)
  | buff, [] => if buff ≠ [] then [pyRstrip buff] else []
  | buff, s :: rest =>
    let buff' := buff ++ s ++ [' ']
    if (buff'.length : Int) - 1 ≥ minLen then
      pyRstrip buff' :: mergeGo minLen [] rest
    else
      mergeGo minLen buff' rest

/-- ChineseSentenceTokenizer.tokenize (lines 79-95); the default value of
min_sentence_len is 10. -/
def sentTokenize (minLen : Int) (text : List Char) : List (List Char) :=
  mergeGo minLen [] (split_sentences text)

/-- The quote-stack computed over a whole text (loop of lines 105-111). -/
def quoteScan (text : List Char) : List Char := text.foldl quoteUpdate []

/-- ChineseSentenceTokenizer._is_sentence_complete (lines 97-116). -/
def is_sentence_complete (text : List Char) : Bool :=
  match text.getLast? with
  | none => false
  | some c => if isSentenceEnd c then (quoteScan text).isEmpty else false

/-
ChineseWordTokenizer (word_tokenizer.py).

Configuration built in __init__ (lines 36-46).  In the source file the two
entries rendered as curly double quotes are both the plain ASCII '"' (U+0022),
and the two entries rendered as curly apostrophes are really the four bytes
of a triple-quoted Python string whose value is the two-character string
", " — lexically `''', '''` opens a triple-quoted string after the second
'"' entry and closes it before '「'.  The two-character entry ", " can never
equal a single character, so it is inert in the per-character membership test.
The default value of ignore_punctuation is True.
-/

/-- punctuations list from _TokenizerOptions, with Python dict/lexing quirks
preserved (duplicate '"' entries and the inert two-character entry). -/
def punctuations : List (List Char) :=
  [['。'], ['，'], ['、'], ['：'], ['；'], ['！'], ['？'], ['（'], ['）'],
   ['"'], ['"'], [',', ' '], ['「'], ['」'], ['『'], ['』'], ['【'], ['】'],
   ['《'], ['》'], ['〈'], ['〉'], ['…'], ['—'], ['～'], ['·'], ['〃'],
   ['.'], [','], ['!'], ['?'], [';'], [':'], ['"'], ['\''], ['('], [')'],
   ['['], [']'], ['\x7b'], ['\x7d'], ['<'], ['>'], ['-'], ['_'], ['='], ['+'],
   ['*'], ['/'], ['\\'], ['|'], ['@'], ['#'], ['$'], ['%'], ['^'], ['&']]

/-- ChineseWordTokenizer._is_chinese_char (lines 52-54): the Python
comparison is by code point. -/
def is_chinese_char (c : Char) : Bool :=
  decide (0x4e00 ≤ c.toNat ∧ c.toNat ≤ 0x9fff)

/-- ChineseWordTokenizer._is_punctuation (lines 56-58):
`char in self._config.punctuations`. -/
def is_punctuation (c : Char) : Bool := punctuations.contains [c]

/-- The loop of _split_words (lines 72-111).  `ip` is ignore_punctuation,
`i` is the enumerate index of the head of the remaining input, `start` is
start_pos, `cur` is current_word.  When the input is exhausted `i` equals
len(text), matching the final append at line 111. -/
def splitWordsGo (ip : Bool) :
    Nat → Nat → List Char → List Char → List (List Char × Nat × Nat)
  | i, start, cur, [] => if cur ≠ [] then [(cur, start, i)] else []
  | i, start, cur, c :: rest =>
    if ip && is_punctuation c then
      (if cur ≠ [] then [(cur, start, i)] else []) ++
        splitWordsGo ip (i + 1) start [] rest
    else if !ip && is_punctuation c then
      (if cur ≠ [] then [(cur, start, i)] else []) ++
        ([c], i, i + 1) :: splitWordsGo ip (i + 1) (i + 1) [] rest
    else if is_chinese_char c then
      (if cur ≠ [] then [(cur, start, i)] else []) ++
        ([c], i, i + 1) :: splitWordsGo ip (i + 1) (i + 1) [] rest
    else if pyIsSpace c then
      if cur ≠ [] then
        (cur, start, i) :: splitWordsGo ip (i + 1) (i + 1) [] rest
      else splitWordsGo ip (i + 1) start [] rest
    else
      if cur = [] then splitWordsGo ip (i + 1) i [c] rest
      else splitWordsGo ip (i + 1) start (cur ++ [c]) rest

/-- ChineseWordTokenizer._split_words (lines 60-113). -/
def split_words (ip : Bool) (text : List Char) :
    List (List Char × Nat × Nat) :=
  if text = [] then [] else splitWordsGo ip 0 0 [] text

/-- ChineseWordTokenizer.tokenize (lines 115-117); the language argument is
ignored by the source.  The default value of ignore_punctuation is True. -/
def wordTokenize (ip : Bool) (text : List Char) : List (List Char) :=
  (split_words ip text).map (fun t => t.1)

/-
TTS (tts.py lines 35-84) and TTSV2 (tts_v2_queue.py lines 29-87):
constructor validation.  volume is a Python int, rate and pitch are Python
floats used only in interval checks against 0.5 and 2.0, modelled as ℚ.
The api_key argument and the DASHSCOPE_API_KEY environment variable are each
modelled as `Option String` (None / unset = none).
-/

/-- The validated options kept by a successfully constructed TTS / TTSV2
(the fields relevant to validation). -/
structure TTSOptions where
  volume : Int
  rate : ℚ
  pitch : ℚ
  apiKey : String
deriving Repr, DecidableEq

/-- Python `api_key or os.environ.get("DASHSCOPE_API_KEY")`: the `or`
falls through when api_key is falsy, i.e. None or the empty string. -/
def pythonOrKey (apiKey env : Option String) : Option String :=
  match apiKey with
  | some s => if s = "" then env else some s
  | none => env

/-- TTS.__init__ validation (tts.py lines 54-67): range checks on volume,
rate and pitch, then the API-key check; raising ValueError is modelled as
`Except.error` with the message of the source. -/
def ttsInit (volume : Int) (rate pitch : ℚ) (apiKey env : Option String) :
    Except String TTSOptions :=
  if ¬ (0 ≤ volume ∧ volume ≤ 100) then
    Except.error "Volume must be between 0 and 100"
  else if ¬ ((1 : ℚ) / 2 ≤ rate ∧ rate ≤ 2) then
    Except.error "Rate must be between 0.5 and 2.0"
  else if ¬ ((1 : ℚ) / 2 ≤ pitch ∧ pitch ≤ 2) then
    Except.error "Pitch must be between 0.5 and 2.0"
  else
    match pythonOrKey apiKey env with
    | none => Except.error "DashScope API key is required"
    | some k => Except.ok ⟨volume, rate, pitch, k⟩

/-- TTSV2.__init__ validation (tts_v2_queue.py lines 49-62): the same checks
with the same messages. -/
def ttsV2Init (volume : Int) (rate pitch : ℚ) (apiKey env : Option String) :
    Except String TTSOptions :=
  if ¬ (0 ≤ volume ∧ volume ≤ 100) then
    Except.error "Volume must be between 0 and 100"
  else if ¬ ((1 : ℚ) / 2 ≤ rate ∧ rate ≤ 2) then
    Except.error "Rate must be between 0.5 and 2.0"
  else if ¬ ((1 : ℚ) / 2 ≤ pitch ∧ pitch ≤ 2) then
    Except.error "Pitch must be between 0.5 and 2.0"
  else
    match pythonOrKey apiKey env with
    | none => Except.error "DashScope API key is required"
    | some k => Except.ok ⟨volume, rate, pitch, k⟩

/-- A constructed chunked-stream request (tts.py ChunkedStream.__init__ /
tts_v2_queue.py ChunkedStream.__init__): synthesize stores text and options
without re-running any validation. -/
structure ChunkedStreamModel where
  text : List Char
  opts : TTSOptions
deriving Repr, DecidableEq

/-- TTS.synthesize (tts.py lines 80-84) and TTSV2.synthesize
(tts_v2_queue.py lines 76-82): the body only constructs a ChunkedStream;
there is no raise statement, so the model always returns `Except.ok`. -/
def ttsSynthesize (opts : TTSOptions) (text : List Char) :
    Except String ChunkedStreamModel :=
  Except.ok ⟨text, opts⟩

/-
SynthesizeStream._main_task of tts_v2_queue.py (lines 98-157), as a
transition system over the coordinating state, for a normally-driven request
(all text pushed, end of input signalled, no cancellation and no exception).

  * pendingFrames  — frames sitting in self._callback_queue;
  * queueClosed    — whether self._callback_queue has been closed;
  * completeEvent  — self._complete_event (set in the finally of
                     sentence_stream_task, line 131);
  * synthComplete  — synthesizer.streaming_complete has returned, i.e. the
                     Callback.on_complete flush (lines 173-183) has run;
  * outputPhase    — the control point of audio_output_task (lines 133-141):
      draining          = inside `async for syn_audio in self._callback_queue`
      awaitingComplete  = at `await self._complete_event.wait()` (line 139)
      closing           = in the finally, about to run line 141
      finished          = audio_output_task has returned (stream DONE).
-/

inductive OutputPhase where
  | draining
  | awaitingComplete
  | closing
  | finished
deriving Repr, DecidableEq

structure V2StreamState where
  pendingFrames : Nat
  queueClosed : Bool
  completeEvent : Bool
  synthComplete : Bool
  outputPhase : OutputPhase
deriving Repr, DecidableEq

/-- State at the start of _main_task: queue open and empty, events unset,
output task inside its read loop. -/
def v2Init : V2StreamState :=
  { pendingFrames := 0
    queueClosed := false
    completeEvent := false
    synthComplete := false
    outputPhase := OutputPhase.draining }

/-- The events of _main_task for a normally-driven request.  send_nowait on
the channel requires it to be open; the async-for over the channel ends only
once the channel is closed and drained. -/
inductive V2Step : V2StreamState → V2StreamState → Prop
  /-- Callback.on_data / the on_complete flush pushes a frame into
  _callback_queue (lines 175-182, 194-202). -/
  | dispatchFrame (s : V2StreamState) (h : s.queueClosed = false) :
      V2Step s { s with pendingFrames := s.pendingFrames + 1 }
  /-- synthesizer.streaming_complete returns after the on_complete flush
  (line 129). -/
  | synthDone (s : V2StreamState) :
      V2Step s { s with synthComplete := true }
  /-- The finally of sentence_stream_task sets _complete_event (line 131). -/
  | setCompleteEvent (s : V2StreamState) (h : s.synthComplete = true) :
      V2Step s { s with completeEvent := true }
  /-- audio_output_task receives one frame from the channel and forwards it
  (lines 135-137). -/
  | outputRecv (s : V2StreamState) (n : Nat)
      (hp : s.outputPhase = OutputPhase.draining)
      (hn : s.pendingFrames = n + 1) :
      V2Step s { s with pendingFrames := n }
  /-- The async-for over _callback_queue ends: requires the channel closed
  and drained; audio_output_task moves to `await self._complete_event.wait()`
  (line 139). -/
  | outputLoopEnd (s : V2StreamState)
      (hp : s.outputPhase = OutputPhase.draining)
      (hq : s.pendingFrames = 0) (hc : s.queueClosed = true) :
      V2Step s { s with outputPhase := OutputPhase.awaitingComplete }
  /-- The wait on _complete_event returns once the event is set. -/
  | outputAwaitDone (s : V2StreamState)
      (hp : s.outputPhase = OutputPhase.awaitingComplete)
      (hc : s.completeEvent = true) :
      V2Step s { s with outputPhase := OutputPhase.closing }
  /-- The finally of audio_output_task closes _callback_queue (line 141) —
  the only close of the channel anywhere in the file — and the task returns. -/
  | outputClose (s : V2StreamState)
      (hp : s.outputPhase = OutputPhase.closing) :
      V2Step s { s with queueClosed := true
                        outputPhase := OutputPhase.finished }

/-- States reachable by a normally-driven request. -/
inductive V2Reachable : V2StreamState → Prop
  | init : V2Reachable v2Init
  | step {s s' : V2StreamState} :
      V2Reachable s → V2Step s s' → V2Reachable s'

/-
Derived notions used by the statements.
-/

/-- The subsequence of non-whitespace characters of a text (the characters the
sentence tokenizer is not allowed to drop or duplicate). -/
def nonSpace (s : List Char) : List Char := s.filter (fun c => !(pyIsSpace c))

/-- Join a group of sentences with a single space between consecutive ones. -/
def joinSp : List (List Char) → List Char
  | [] => []
  | [s] => s
  | s :: t :: rest => s ++ ' ' :: joinSp (t :: rest)

/-- Modelled from the spec wording for the merging step of tokenize (claim C5):
raw sentences are accumulated in order and joined by a single space; a merged
group is emitted as one sentence as soon as its accumulated length reaches
min_sentence_len; a non-empty merged-but-still-short remainder at end of input
is emitted as the final sentence, never dropped.  `acc` is the group of raw
sentences accumulated so far. -/
def greedyMergeSpec (minLen : Int) : List (List Char) → List (List Char) → List (List Char)
  | acc, [] => if acc ≠ [] then [joinSp acc] else []
  | acc, s :: rest =>
    let acc' := acc ++ [s]
    if ((joinSp acc').length : Int) ≥ minLen then
      joinSp acc' :: greedyMergeSpec minLen [] rest
    else
      greedyMergeSpec minLen acc' rest

/-
Helper lemmas about the Python string primitives.
-/

theorem dropWhile_append_singleton_of_neg {p : Char → Bool} {c : Char}
    (h : p c = false) (l : List Char) :
    (l ++ [c]).dropWhile p = l.dropWhile p ++ [c] := by
  induction l with
  | nil => simp [List.dropWhile, h]
  | cons a t ih =>
    by_cases ha : p a
    · simpa [List.dropWhile, ha] using ih
    · simp [List.dropWhile, ha]

theorem pyRstrip_cons_of_not_space {c : Char} (h : pyIsSpace c = false)
    (t : List Char) : pyRstrip (c :: t) = c :: pyRstrip t := by
  unfold pyRstrip
  rw [show (c :: t).reverse = t.reverse ++ [c] by simp,
      dropWhile_append_singleton_of_neg h]
  simp

theorem pyRstrip_append_space {c : Char} (h : pyIsSpace c = true)
    (l : List Char) : pyRstrip (l ++ [c]) = pyRstrip l := by
  unfold pyRstrip
  rw [show (l ++ [c]).reverse = c :: l.reverse by simp]
  simp [List.dropWhile, h]

theorem pyLstrip_cons_of_not_space {c : Char} (h : pyIsSpace c = false)
    (t : List Char) : pyLstrip (c :: t) = c :: t := by
  simp [pyLstrip, List.dropWhile, h]

theorem head?_dropWhile_neg (p : Char → Bool) (l : List Char) {c : Char}
    (h : (l.dropWhile p).head? = some c) : p c = false := by
  induction l with
  | nil => simp [List.dropWhile] at h
  | cons a t ih =>
    by_cases ha : p a
    · exact ih (by simpa [List.dropWhile, ha] using h)
    · simp [List.dropWhile, ha] at h
      subst h
      simpa using ha

theorem pyLstrip_head_not_space {l : List Char} {c : Char}
    (h : (pyLstrip l).head? = some c) : pyIsSpace c = false :=
  head?_dropWhile_neg pyIsSpace l h

theorem pyRstrip_getLast_not_space {l : List Char} {c : Char}
    (h : (pyRstrip l).getLast? = some c) : pyIsSpace c = false := by
  unfold pyRstrip at h
  rw [List.getLast?_reverse] at h
  exact head?_dropWhile_neg pyIsSpace l.reverse h

theorem pyRstrip_eq_self_of_getLast {l : List Char} {c : Char}
    (hl : l.getLast? = some c) (h : pyIsSpace c = false) : pyRstrip l = l := by
  unfold pyRstrip
  rw [← List.head?_reverse] at hl
  obtain ⟨t, ht⟩ : ∃ t, l.reverse = c :: t := by
    cases hr : l.reverse with
    | nil => rw [hr] at hl; simp at hl
    | cons a t => rw [hr] at hl; simp at hl; exact ⟨t, by rw [hl]⟩
  rw [ht]
  rw [List.dropWhile_cons_of_neg (by simp [h])]
  have := congrArg List.reverse ht
  simpa using this.symm

theorem pyLstrip_eq_self_of_head {l : List Char} {c : Char}
    (hl : l.head? = some c) (h : pyIsSpace c = false) : pyLstrip l = l := by
  cases l with
  | nil => rfl
  | cons a t =>
    simp at hl
    subst hl
    exact pyLstrip_cons_of_not_space h t

theorem pyStrip_head_not_space {l : List Char} {c : Char}
    (h : (pyStrip l).head? = some c) : pyIsSpace c = false := by
  unfold pyStrip at h
  cases hls : pyLstrip l with
  | nil => rw [hls] at h; simp [pyRstrip] at h
  | cons a t =>
    have ha : pyIsSpace a = false :=
      pyLstrip_head_not_space (l := l) (by rw [hls]; rfl)
    rw [hls, pyRstrip_cons_of_not_space ha] at h
    simp at h
    rw [← h]
    exact ha

theorem pyStrip_getLast_not_space {l : List Char} {c : Char}
    (h : (pyStrip l).getLast? = some c) : pyIsSpace c = false :=
  pyRstrip_getLast_not_space h

theorem pyStrip_idem (l : List Char) : pyStrip (pyStrip l) = pyStrip l := by
  cases hs : pyStrip l with
  | nil => rfl
  | cons a t =>
    have ha : pyIsSpace a = false := pyStrip_head_not_space (by rw [hs]; rfl)
    have hlast : ∃ c, (pyStrip l).getLast? = some c := by
      rw [hs]; exact ⟨(a :: t).getLast (by simp), List.getLast?_eq_getLast _ _⟩
    obtain ⟨c, hc⟩ := hlast
    have hcns : pyIsSpace c = false := pyStrip_getLast_not_space hc
    show pyRstrip (pyLstrip (a :: t)) = a :: t
    rw [pyLstrip_cons_of_not_space ha]
    rw [← hs]
    exact pyRstrip_eq_self_of_getLast hc hcns

/-
Non-whitespace preservation.
-/

theorem nonSpace_append (a b : List Char) :
    nonSpace (a ++ b) = nonSpace a ++ nonSpace b := by
  simp [nonSpace, List.filter_append]

theorem nonSpace_dropWhile (l : List Char) :
    nonSpace (l.dropWhile pyIsSpace) = nonSpace l := by
  induction l with
  | nil => rfl
  | cons a t ih =>
    by_cases ha : pyIsSpace a
    · simp [List.dropWhile, ha, nonSpace, List.filter] at ih ⊢
      simpa [ha] using ih
    · simp [List.dropWhile, ha]

theorem nonSpace_reverse (l : List Char) :
    nonSpace l.reverse = (nonSpace l).reverse := by
  simp [nonSpace, List.filter_reverse]

theorem nonSpace_pyLstrip (l : List Char) : nonSpace (pyLstrip l) = nonSpace l :=
  nonSpace_dropWhile l

theorem nonSpace_pyRstrip (l : List Char) : nonSpace (pyRstrip l) = nonSpace l := by
  unfold pyRstrip
  rw [nonSpace_reverse, nonSpace_dropWhile, nonSpace_reverse]
  simp

theorem nonSpace_pyStrip (l : List Char) : nonSpace (pyStrip l) = nonSpace l := by
  unfold pyStrip
  rw [nonSpace_pyRstrip, nonSpace_pyLstrip]

theorem nonSpace_nil : nonSpace [] = [] := rfl

theorem nonSpace_nil_of_pyStrip_nil {cur : List Char} (h : pyStrip cur = []) :
    nonSpace cur = [] := by
  have h2 := nonSpace_pyStrip cur
  rw [h] at h2
  simpa using h2.symm

theorem nonSpace_splitSentencesGo (rest : List Char) :
    ∀ (stack cur : List Char),
    nonSpace (splitSentencesGo stack cur rest).flatten = nonSpace (cur ++ rest) := by
  induction rest with
  | nil =>
    intro stack cur
    by_cases h : pyStrip cur = []
    · simp [splitSentencesGo, h, nonSpace_nil_of_pyStrip_nil h, nonSpace_nil]
    · simp [splitSentencesGo, h, nonSpace_pyStrip]
  | cons c rest ih =>
    intro stack cur
    show nonSpace (splitSentencesGo stack cur (c :: rest)).flatten = _
    rw [splitSentencesGo]
    rw [show cur ++ c :: rest = (cur ++ [c]) ++ rest by simp]
    by_cases hc : isSentenceEnd c ∧ quoteUpdate stack c = []
    · rw [if_pos hc]
      by_cases hs : pyStrip (cur ++ [c]) = []
      · rw [if_neg (by simpa using hs)]
        simp only [List.nil_append, List.flatten_append, List.flatten_nil,
          List.nil_append, ih, nonSpace_append,
          nonSpace_nil_of_pyStrip_nil hs, nonSpace_nil]
      · rw [if_pos (by simpa using hs)]
        simp only [List.flatten_append, List.flatten_cons, List.flatten_nil,
          List.append_nil, nonSpace_append, nonSpace_pyStrip, ih,
          List.nil_append]
    · rw [if_neg hc, ih]

theorem nonSpace_split_sentences (text : List Char) :
    nonSpace (split_sentences text).flatten = nonSpace text := by
  unfold split_sentences
  by_cases h : text = []
  · simp [h, nonSpace]
  · rw [if_neg h, nonSpace_splitSentencesGo]
    simp

theorem nonSpace_mergeGo (minLen : Int) (l : List (List Char)) :
    ∀ buff : List Char,
    nonSpace (mergeGo minLen buff l).flatten = nonSpace buff ++ nonSpace l.flatten := by
  induction l with
  | nil =>
    intro buff
    by_cases h : buff = []
    · simp [mergeGo, h, nonSpace]
    · simp only [mergeGo, if_pos (by simpa using h), List.flatten_cons,
        List.flatten_nil, List.append_nil, nonSpace_pyRstrip]
      simp [nonSpace]
  | cons s rest ih =>
    intro buff
    show nonSpace (mergeGo minLen buff (s :: rest)).flatten = _
    rw [mergeGo]
    have hsp : nonSpace [' '] = [] := by decide
    by_cases h : ((buff ++ s ++ [' ']).length : Int) - 1 ≥ minLen
    · rw [if_pos h]
      simp only [List.flatten_cons, nonSpace_append, nonSpace_pyRstrip, ih,
        hsp, List.append_nil, List.append_assoc, List.nil_append, nonSpace_nil]
    · rw [if_neg h, ih]
      simp only [List.flatten_cons, nonSpace_append, hsp, List.append_nil,
        List.append_assoc]

/-
Outputs of the sentence splitter are non-empty and stripped.
-/

theorem pyStrip_of_stripped_head {l : List Char} {c : Char}
    (hl : l.head? = some c) : pyIsSpace c = false → pyLstrip l = l :=
  fun h => pyLstrip_eq_self_of_head hl h

theorem pyStrip_fix_of_ends {l : List Char}
    (hh : ∀ c ∈ l.head?, pyIsSpace c = false)
    (hl : ∀ c ∈ l.getLast?, pyIsSpace c = false) : pyStrip l = l := by
  cases l with
  | nil => rfl
  | cons a t =>
    have ha : pyIsSpace a = false := hh a rfl
    unfold pyStrip
    rw [pyLstrip_cons_of_not_space ha]
    have hlast : (a :: t).getLast? = some ((a :: t).getLast (by simp)) :=
      List.getLast?_eq_getLast _ _
    exact pyRstrip_eq_self_of_getLast hlast (hl _ hlast)

theorem pyStrip_head_of_fix {l : List Char} (h : pyStrip l = l) :
    ∀ c ∈ l.head?, pyIsSpace c = false := by
  intro c hc
  exact pyStrip_head_not_space (by rw [h]; exact hc)

theorem pyStrip_getLast_of_fix {l : List Char} (h : pyStrip l = l) :
    ∀ c ∈ l.getLast?, pyIsSpace c = false := by
  intro c hc
  exact pyStrip_getLast_not_space (by rw [h]; exact hc)

theorem splitSentencesGo_stripped (rest : List Char) :
    ∀ (stack cur : List Char),
    ∀ s ∈ splitSentencesGo stack cur rest, s ≠ [] ∧ pyStrip s = s := by
  induction rest with
  | nil =>
    intro stack cur s hs
    by_cases h : pyStrip cur ≠ []
    · simp [splitSentencesGo, h] at hs
      subst hs
      exact ⟨h, pyStrip_idem cur⟩
    · simp [splitSentencesGo, h] at hs
  | cons c rest ih =>
    intro stack cur s hs
    rw [splitSentencesGo] at hs
    by_cases hc : isSentenceEnd c ∧ quoteUpdate stack c = []
    · rw [if_pos hc] at hs
      by_cases h2 : pyStrip (cur ++ [c]) ≠ []
      · rw [if_pos h2] at hs
        rcases List.mem_append.mp hs with h3 | h3
        · simp at h3
          subst h3
          exact ⟨h2, pyStrip_idem _⟩
        · exact ih _ _ s h3
      · rw [if_neg h2] at hs
        exact ih _ _ s (by simpa using hs)
    · rw [if_neg hc] at hs
      exact ih _ _ s hs

theorem split_sentences_stripped (text : List Char) :
    ∀ s ∈ split_sentences text, s ≠ [] ∧ pyStrip s = s := by
  intro s hs
  unfold split_sentences at hs
  by_cases h : text = []
  · simp [h] at hs
  · exact splitSentencesGo_stripped text [] [] s (by simpa [h] using hs)

/-- If the head character of `buff` is non-whitespace, right-stripping keeps
it, so the result is non-empty, starts with the same character, and is its own
strip. -/
theorem pyRstrip_clean_of_head {buff : List Char} {c : Char}
    (hh : buff.head? = some c) (hc : pyIsSpace c = false) :
    pyRstrip buff ≠ [] ∧ (pyRstrip buff).head? = some c ∧
      pyStrip (pyRstrip buff) = pyRstrip buff := by
  cases buff with
  | nil => simp at hh
  | cons a t =>
    have hac : a = c := by simpa using hh
    subst hac
    rw [pyRstrip_cons_of_not_space hc]
    refine ⟨by simp, rfl, ?_⟩
    apply pyStrip_fix_of_ends
    · intro d hd
      have had : a = d := by simpa using hd
      rw [← had]
      exact hc
    · intro d hd
      refine pyRstrip_getLast_not_space (l := a :: t) ?_
      rw [pyRstrip_cons_of_not_space hc]
      exact hd

/-- Head of an append whose first part is non-empty. -/
theorem head?_append_left {a b : List Char} (h : a ≠ []) :
    (a ++ b).head? = a.head? := by
  cases a with
  | nil => exact absurd rfl h
  | cons x t => rfl

theorem mergeGo_stripped (minLen : Int) (l : List (List Char)) :
    ∀ buff : List Char,
    (∀ s ∈ l, s ≠ [] ∧ pyStrip s = s) →
    (buff = [] ∨ ∃ c, buff.head? = some c ∧ pyIsSpace c = false) →
    ∀ t ∈ mergeGo minLen buff l, t ≠ [] ∧ pyStrip t = t := by
  induction l with
  | nil =>
    intro buff _ hbuff t ht
    by_cases h : buff = []
    · simp [mergeGo, h] at ht
    · simp [mergeGo, h] at ht
      subst ht
      rcases hbuff with h2 | ⟨c, hc, hcs⟩
      · exact absurd h2 h
      · obtain ⟨h1, _, h3⟩ := pyRstrip_clean_of_head hc hcs
        exact ⟨h1, h3⟩
  | cons s rest ih =>
    intro buff hl hbuff t ht
    have hs := hl s (by simp)
    have hshead : ∃ c, s.head? = some c ∧ pyIsSpace c = false := by
      cases s with
      | nil => exact absurd rfl hs.1
      | cons a u =>
        exact ⟨a, rfl, pyStrip_head_of_fix hs.2 a rfl⟩
    have hbuff' : ∃ c, (buff ++ s ++ [' ']).head? = some c ∧ pyIsSpace c = false := by
      rcases hbuff with h | ⟨c, hc, hcs⟩
      · subst h
        obtain ⟨c, hc, hcs⟩ := hshead
        refine ⟨c, ?_, hcs⟩
        rw [List.nil_append, head?_append_left hs.1]
        exact hc
      · refine ⟨c, ?_, hcs⟩
        rw [List.append_assoc,
            head?_append_left (by rintro rfl; simp at hc)]
        exact hc
    rw [mergeGo] at ht
    by_cases h : ((buff ++ s ++ [' ']).length : Int) - 1 ≥ minLen
    · rw [if_pos h] at ht
      rcases List.mem_cons.mp ht with h2 | h2
      · subst h2
        obtain ⟨c, hc, hcs⟩ := hbuff'
        obtain ⟨h1, _, h3⟩ := pyRstrip_clean_of_head hc hcs
        exact ⟨h1, h3⟩
      · exact ih [] (fun u hu => hl u (by simp [hu])) (Or.inl rfl) t h2
    · rw [if_neg h] at ht
      exact ih _ (fun u hu => hl u (by simp [hu])) (Or.inr hbuff') t ht

/-
Correspondence between the tokenize merge loop and its specification
(greedy merge of raw sentences joined by single spaces).
-/

theorem joinSp_append_singleton (s : List Char) :
    ∀ acc, acc ≠ [] → joinSp (acc ++ [s]) = joinSp acc ++ ' ' :: s := by
  intro acc
  induction acc with
  | nil => intro h; exact absurd rfl h
  | cons a t ih =>
    intro _
    cases t with
    | nil => rfl
    | cons b u =>
      show joinSp (a :: (b :: u ++ [s])) = _
      have h2 : joinSp (a :: (b :: u ++ [s])) =
          a ++ ' ' :: joinSp (b :: u ++ [s]) := rfl
      rw [h2, ih (by simp),
        show joinSp (a :: b :: u) = a ++ ' ' :: joinSp (b :: u) from rfl]
      simp

theorem joinSp_clean_getLast (acc : List (List Char)) :
    acc ≠ [] → (∀ s ∈ acc, s ≠ [] ∧ pyStrip s = s) →
    ∃ c, (joinSp acc).getLast? = some c ∧ pyIsSpace c = false := by
  induction acc with
  | nil => intro h; exact absurd rfl h
  | cons s t ih =>
    intro _ hclean
    cases t with
    | nil =>
      have hs := hclean s (by simp)
      refine ⟨(joinSp [s]).getLast hs.1, List.getLast?_eq_getLast _ _, ?_⟩
      have : (joinSp [s]).getLast? = some ((joinSp [s]).getLast hs.1) :=
        List.getLast?_eq_getLast _ _
      exact pyStrip_getLast_of_fix hs.2 _ this
    | cons b u =>
      obtain ⟨c, hc, hcs⟩ := ih (by simp) (fun x hx => hclean x (by simp [hx]))
      refine ⟨c, ?_, hcs⟩
      have hne : joinSp (b :: u) ≠ [] := by
        intro hnil
        rw [hnil] at hc
        simp at hc
      show (s ++ ' ' :: joinSp (b :: u)).getLast? = some c
      rw [List.getLast?_append_of_ne_nil s (by simp)]
      rw [show (' ' :: joinSp (b :: u)) = [' '] ++ joinSp (b :: u) by rfl]
      rw [List.getLast?_append_of_ne_nil [' '] hne]
      exact hc

theorem pyRstrip_joinSp_space (acc : List (List Char)) (hne : acc ≠ [])
    (hclean : ∀ s ∈ acc, s ≠ [] ∧ pyStrip s = s) :
    pyRstrip (joinSp acc ++ [' ']) = joinSp acc := by
  obtain ⟨c, hc, hcs⟩ := joinSp_clean_getLast acc hne hclean
  rw [pyRstrip_append_space (by decide)]
  exact pyRstrip_eq_self_of_getLast hc hcs

theorem mergeGo_eq_greedy (minLen : Int) (l : List (List Char)) :
    ∀ (acc : List (List Char)) (buff : List Char),
    (∀ s ∈ l, s ≠ [] ∧ pyStrip s = s) →
    (∀ s ∈ acc, s ≠ [] ∧ pyStrip s = s) →
    (acc = [] → buff = []) →
    (acc ≠ [] → buff = joinSp acc ++ [' ']) →
    mergeGo minLen buff l = greedyMergeSpec minLen acc l := by
  induction l with
  | nil =>
    intro acc buff _ hacc hb1 hb2
    by_cases h : acc = []
    · rw [hb1 h, h]
      rfl
    · rw [hb2 h]
      show (if joinSp acc ++ [' '] ≠ [] then [pyRstrip (joinSp acc ++ [' '])]
            else []) = if acc ≠ [] then [joinSp acc] else []
      rw [if_pos (show joinSp acc ++ [' '] ≠ [] by simp), if_pos h,
        pyRstrip_joinSp_space acc h hacc]
  | cons s rest ih =>
    intro acc buff hl hacc hb1 hb2
    have hs := hl s (by simp)
    have hacc' : ∀ x ∈ acc ++ [s], x ≠ [] ∧ pyStrip x = x := by
      intro x hx
      rcases List.mem_append.mp hx with h | h
      · exact hacc x h
      · simp at h
        subst h
        exact hs
    have hbuff' : buff ++ s ++ [' '] = joinSp (acc ++ [s]) ++ [' '] := by
      by_cases h : acc = []
      · rw [hb1 h, h]
        simp [joinSp]
      · rw [hb2 h, joinSp_append_singleton s acc h]
        simp
    have hlen : (((buff ++ s ++ [' ']).length : Int) - 1 ≥ minLen) ↔
        (((joinSp (acc ++ [s])).length : Int) ≥ minLen) := by
      rw [hbuff']
      rw [List.length_append]
      push_cast
      simp
    show (if ((buff ++ s ++ [' ']).length : Int) - 1 ≥ minLen then
            pyRstrip (buff ++ s ++ [' ']) :: mergeGo minLen [] rest
          else mergeGo minLen (buff ++ s ++ [' ']) rest) =
         (if ((joinSp (acc ++ [s])).length : Int) ≥ minLen then
            joinSp (acc ++ [s]) :: greedyMergeSpec minLen [] rest
          else greedyMergeSpec minLen (acc ++ [s]) rest)
    by_cases h : ((joinSp (acc ++ [s])).length : Int) ≥ minLen
    · rw [if_pos (hlen.mpr h), if_pos h, hbuff',
        pyRstrip_joinSp_space _ (by simp) hacc',
        ih [] [] (fun x hx => hl x (by simp [hx])) (by simp)
          (fun _ => rfl) (fun hx => absurd rfl hx)]
    · rw [if_neg (fun hh => h (hlen.mp hh)), if_neg h]
      exact ih (acc ++ [s]) (buff ++ s ++ [' '])
        (fun x hx => hl x (by simp [hx])) hacc'
        (by simp) (fun _ => hbuff')

/-
Soundness of the word splitter offsets.
-/

theorem pySlice_append_left {pre rest : List Char} {start : Nat}
    (h : start ≤ pre.length) :
    pySlice (pre ++ rest) start pre.length = pre.drop start := by
  unfold pySlice
  rw [List.drop_append_of_le_length h,
    show pre.length - start = (pre.drop start).length by
      rw [List.length_drop],
    List.take_left]

theorem pySlice_singleton (pre rest : List Char) (c : Char) :
    pySlice (pre ++ c :: rest) pre.length (pre.length + 1) = [c] := by
  unfold pySlice
  rw [List.drop_left, Nat.add_sub_cancel_left]
  rfl

theorem splitWordsGo_sound (ip : Bool) :
    ∀ (rest pre : List Char) (start : Nat) (cur : List Char),
    start ≤ pre.length →
    (cur ≠ [] → pre.drop start = cur) →
    (∀ t ∈ splitWordsGo ip pre.length start cur rest,
        (if cur = [] then pre.length else start) ≤ t.2.1 ∧
        t.2.1 < t.2.2 ∧ t.2.2 ≤ pre.length + rest.length ∧
        pySlice (pre ++ rest) t.2.1 t.2.2 = t.1) ∧
    List.Chain' (fun a b => a.2.2 ≤ b.2.1)
      (splitWordsGo ip pre.length start cur rest) := by
  intro rest
  induction rest with
  | nil =>
    intro pre start cur hstart hcur
    by_cases hc : cur = []
    · subst hc
      simp [splitWordsGo]
    · have hd := hcur hc
      have hlt : start < pre.length := by
        have h2 : pre.drop start ≠ [] := by rw [hd]; exact hc
        exact List.length_lt_of_drop_ne_nil h2
      constructor
      · intro t ht
        simp only [splitWordsGo, if_pos hc, List.mem_singleton] at ht
        subst ht
        refine ⟨by simp [hc], hlt, by simp, ?_⟩
        show pySlice (pre ++ []) start pre.length = cur
        exact (pySlice_append_left hlt.le).trans hd
      · simp [splitWordsGo, hc]
  | cons c rest ih =>
    intro pre start cur hstart hcur
    have hplen : (pre ++ [c]).length = pre.length + 1 := by simp
    have happ : (pre ++ [c]) ++ rest = pre ++ c :: rest := by simp
    -- facts about the flushed word, available when cur is non-empty
    have hflush : cur ≠ [] →
        start < pre.length ∧
        pySlice (pre ++ c :: rest) start pre.length = cur := by
      intro hc
      have hd := hcur hc
      have hlt : start < pre.length := by
        have h2 : pre.drop start ≠ [] := by rw [hd]; exact hc
        exact List.length_lt_of_drop_ne_nil h2
      exact ⟨hlt, (pySlice_append_left hlt.le).trans hd⟩
    show (∀ t ∈ splitWordsGo ip pre.length start cur (c :: rest), _) ∧ _
    rw [splitWordsGo]
    by_cases h1 : (ip && is_punctuation c) = true
    · -- ignored punctuation: flush current word, keep start_pos
      rw [if_pos h1]
      obtain ⟨ihm, ihc⟩ := ih (pre ++ [c]) start []
        (by omega) (fun h => absurd rfl h)
      rw [hplen] at ihm ihc
      rw [happ] at ihm
      by_cases hc : cur = []
      · subst hc
        rw [if_neg (fun h => h rfl)]
        refine ⟨?_, by simpa using ihc⟩
        intro t ht
        obtain ⟨hb, h3, h4, h5⟩ := ihm t (by simpa using ht)
        have hb2 : pre.length + 1 ≤ t.2.1 := by simpa using hb
        refine ⟨by simp; omega, h3, by simp only [List.length_cons]; omega, h5⟩
      · rw [if_pos hc]
        obtain ⟨hlt, hsl⟩ := hflush hc
        refine ⟨?_, ?_⟩
        · intro t ht
          rcases List.mem_append.mp ht with h2 | h2
          · simp only [List.mem_singleton] at h2
            subst h2
            refine ⟨by simp [hc], hlt, by simp only [List.length_cons]; omega, hsl⟩
          · obtain ⟨hb, h3, h4, h5⟩ := ihm t h2
            have hb2 : pre.length + 1 ≤ t.2.1 := by simpa using hb
            refine ⟨by simp [hc]; omega, h3,
              by simp only [List.length_cons]; omega, h5⟩
        · rw [List.singleton_append, List.chain'_cons']
          refine ⟨?_, by simpa using ihc⟩
          intro y hy
          obtain ⟨hb, _, _, _⟩ := ihm y (List.mem_of_mem_head? hy)
          have hb2 : pre.length + 1 ≤ y.2.1 := by simpa using hb
          show pre.length ≤ y.2.1
          omega
    · rw [if_neg h1]
      by_cases h2 : (!ip && is_punctuation c) = true
      · -- kept punctuation: flush, then the punctuation is its own unit
        rw [if_pos h2]
        obtain ⟨ihm, ihc⟩ := ih (pre ++ [c]) (pre.length + 1) []
          (by omega) (fun h => absurd rfl h)
        rw [hplen] at ihm ihc
        rw [happ] at ihm
        have hsing : pySlice (pre ++ c :: rest) pre.length (pre.length + 1) = [c] :=
          pySlice_singleton pre rest c
        have hmid : ∀ t ∈ splitWordsGo ip (pre.length + 1) (pre.length + 1) [] rest,
            (if cur = [] then pre.length else start) ≤ t.2.1 ∧
            t.2.1 < t.2.2 ∧ t.2.2 ≤ pre.length + (c :: rest).length ∧
            pySlice (pre ++ c :: rest) t.2.1 t.2.2 = t.1 := by
          intro t ht
          obtain ⟨hb, h3, h4, h5⟩ := ihm t ht
          have hb2 : pre.length + 1 ≤ t.2.1 := by simpa using hb
          refine ⟨?_, h3, by simp only [List.length_cons]; omega, h5⟩
          by_cases hcn : cur = []
          · rw [if_pos hcn]; omega
          · rw [if_neg hcn]; omega
        have hchain : List.Chain' (fun a b => a.2.2 ≤ b.2.1)
            (([c], pre.length, pre.length + 1) ::
              splitWordsGo ip (pre.length + 1) (pre.length + 1) [] rest) := by
          rw [List.chain'_cons']
          refine ⟨?_, by simpa using ihc⟩
          intro y hy
          obtain ⟨hb, _, _, _⟩ := ihm y (List.mem_of_mem_head? hy)
          simpa using hb
        by_cases hc : cur = []
        · subst hc
          rw [if_neg (fun h => h rfl)]
          refine ⟨?_, by simpa using hchain⟩
          intro t ht
          simp only [List.nil_append, List.mem_cons] at ht
          rcases ht with h3 | h3
          · subst h3
            exact ⟨by simp, by simp, by simp only [List.length_cons]; omega, hsing⟩
          · exact hmid t h3
        · rw [if_pos hc]
          obtain ⟨hlt, hsl⟩ := hflush hc
          refine ⟨?_, ?_⟩
          · intro t ht
            rcases List.mem_append.mp ht with h3 | h3
            · simp only [List.mem_singleton] at h3
              subst h3
              refine ⟨by simp [hc], hlt, by simp only [List.length_cons]; omega, hsl⟩
            · rcases List.mem_cons.mp h3 with h4 | h4
              · subst h4
                refine ⟨by simp [hc]; omega, by simp,
                  by simp only [List.length_cons]; omega, hsing⟩
              · exact hmid t h4
          · rw [List.singleton_append, List.chain'_cons']
            refine ⟨?_, hchain⟩
            intro y hy
            have hy2 : y = ([c], pre.length, pre.length + 1) :=
              (by simpa using hy : _ = y).symm
            subst hy2
            show pre.length ≤ pre.length
            exact le_refl _
      · rw [if_neg h2]
        by_cases h3 : is_chinese_char c = true
        · -- CJK character: flush, then the character is its own unit
          rw [if_pos h3]
          obtain ⟨ihm, ihc⟩ := ih (pre ++ [c]) (pre.length + 1) []
            (by omega) (fun h => absurd rfl h)
          rw [hplen] at ihm ihc
          rw [happ] at ihm
          have hsing : pySlice (pre ++ c :: rest) pre.length (pre.length + 1) = [c] :=
            pySlice_singleton pre rest c
          have hmid : ∀ t ∈ splitWordsGo ip (pre.length + 1) (pre.length + 1) [] rest,
              (if cur = [] then pre.length else start) ≤ t.2.1 ∧
              t.2.1 < t.2.2 ∧ t.2.2 ≤ pre.length + (c :: rest).length ∧
              pySlice (pre ++ c :: rest) t.2.1 t.2.2 = t.1 := by
            intro t ht
            obtain ⟨hb, h4, h5, h6⟩ := ihm t ht
            have hb2 : pre.length + 1 ≤ t.2.1 := by simpa using hb
            refine ⟨?_, h4, by simp only [List.length_cons]; omega, h6⟩
            by_cases hcn : cur = []
            · rw [if_pos hcn]; omega
            · rw [if_neg hcn]; omega
          have hchain : List.Chain' (fun a b => a.2.2 ≤ b.2.1)
              (([c], pre.length, pre.length + 1) ::
                splitWordsGo ip (pre.length + 1) (pre.length + 1) [] rest) := by
            rw [List.chain'_cons']
            refine ⟨?_, by simpa using ihc⟩
            intro y hy
            obtain ⟨hb, _, _, _⟩ := ihm y (List.mem_of_mem_head? hy)
            simpa using hb
          by_cases hc : cur = []
          · subst hc
            rw [if_neg (fun h => h rfl)]
            refine ⟨?_, by simpa using hchain⟩
            intro t ht
            simp only [List.nil_append, List.mem_cons] at ht
            rcases ht with h4 | h4
            · subst h4
              exact ⟨by simp, by simp, by simp only [List.length_cons]; omega, hsing⟩
            · exact hmid t h4
          · rw [if_pos hc]
            obtain ⟨hlt, hsl⟩ := hflush hc
            refine ⟨?_, ?_⟩
            · intro t ht
              rcases List.mem_append.mp ht with h4 | h4
              · simp only [List.mem_singleton] at h4
                subst h4
                refine ⟨by simp [hc], hlt, by simp only [List.length_cons]; omega, hsl⟩
              · rcases List.mem_cons.mp h4 with h5 | h5
                · subst h5
                  refine ⟨by simp [hc]; omega, by simp,
                    by simp only [List.length_cons]; omega, hsing⟩
                · exact hmid t h5
            · rw [List.singleton_append, List.chain'_cons']
              refine ⟨?_, hchain⟩
              intro y hy
              have hy2 : y = ([c], pre.length, pre.length + 1) :=
              (by simpa using hy : _ = y).symm
              subst hy2
              show pre.length ≤ pre.length
              exact le_refl _
        · rw [if_neg h3]
          by_cases h4 : pyIsSpace c = true
          · -- whitespace: flush if a word is in progress
            rw [if_pos h4]
            by_cases hc : cur = []
            · subst hc
              rw [if_neg (fun h => h rfl)]
              obtain ⟨ihm, ihc⟩ := ih (pre ++ [c]) start []
                (by omega) (fun h => absurd rfl h)
              rw [hplen] at ihm ihc
              rw [happ] at ihm
              refine ⟨?_, ihc⟩
              intro t ht
              obtain ⟨hb, h5, h6, h7⟩ := ihm t ht
              have hb2 : pre.length + 1 ≤ t.2.1 := by simpa using hb
              exact ⟨by simp; omega, h5,
                by simp only [List.length_cons]; omega, h7⟩
            · rw [if_pos hc]
              obtain ⟨ihm, ihc⟩ := ih (pre ++ [c]) (pre.length + 1) []
                (by omega) (fun h => absurd rfl h)
              rw [hplen] at ihm ihc
              rw [happ] at ihm
              obtain ⟨hlt, hsl⟩ := hflush hc
              refine ⟨?_, ?_⟩
              · intro t ht
                rcases List.mem_cons.mp ht with h5 | h5
                · subst h5
                  refine ⟨by simp [hc], hlt,
                    by simp only [List.length_cons]; omega, hsl⟩
                · obtain ⟨hb, h6, h7, h8⟩ := ihm t h5
                  have hb2 : pre.length + 1 ≤ t.2.1 := by simpa using hb
                  exact ⟨by simp [hc]; omega, h6,
                    by simp only [List.length_cons]; omega, h8⟩
              · rw [List.chain'_cons']
                refine ⟨?_, by simpa using ihc⟩
                intro y hy
                obtain ⟨hb, _, _, _⟩ := ihm y (List.mem_of_mem_head? hy)
                have hb2 : pre.length + 1 ≤ y.2.1 := by simpa using hb
                show pre.length ≤ y.2.1
                omega
          · -- ordinary character: accumulate it into the current word
            rw [if_neg h4]
            by_cases hc : cur = []
            · rw [if_pos hc]
              subst hc
              obtain ⟨ihm, ihc⟩ := ih (pre ++ [c]) pre.length [c]
                (by omega)
                (fun _ => by rw [List.drop_left])
              rw [hplen] at ihm ihc
              rw [happ] at ihm
              refine ⟨?_, ihc⟩
              intro t ht
              obtain ⟨hb, h5, h6, h7⟩ := ihm t ht
              have hb2 : pre.length ≤ t.2.1 := by simpa using hb
              exact ⟨by simp; omega, h5,
                by simp only [List.length_cons]; omega, h7⟩
            · rw [if_neg hc]
              obtain ⟨ihm, ihc⟩ := ih (pre ++ [c]) start (cur ++ [c])
                (by omega)
                (fun _ => by
                  rw [List.drop_append_of_le_length hstart, hcur hc])
              rw [hplen] at ihm ihc
              rw [happ] at ihm
              refine ⟨?_, ihc⟩
              intro t ht
              obtain ⟨hb, h5, h6, h7⟩ := ihm t ht
              have hb2 : start ≤ t.2.1 := by
                have hne : cur ++ [c] ≠ [] := by simp
                simpa [hne] using hb
              exact ⟨by simp [hc]; omega, h5,
                by simp only [List.length_cons]; omega, h7⟩

/-
Character-class facts for the word tokenizer.
-/

theorem punct_entries_not_cjk :
    ∀ w ∈ punctuations, ∀ ch ∈ w, is_chinese_char ch = false := by decide

theorem ws_entries_not_cjk :
    ∀ ch ∈ pythonWhitespace, is_chinese_char ch = false := by decide

theorem cjk_not_punct {c : Char} (h : is_chinese_char c = true) :
    is_punctuation c = false := by
  by_contra h2
  have h3 : is_punctuation c = true := by
    cases h4 : is_punctuation c
    · exact absurd h4 h2
    · rfl
  have h5 : [c] ∈ punctuations := List.elem_iff.mp h3
  have h6 := punct_entries_not_cjk [c] h5 c (by simp)
  rw [h] at h6
  exact Bool.noConfusion h6

theorem cjk_not_space {c : Char} (h : is_chinese_char c = true) :
    pyIsSpace c = false := by
  by_contra h2
  have h3 : pyIsSpace c = true := by
    cases h4 : pyIsSpace c
    · exact absurd h4 h2
    · rfl
  have h5 : c ∈ pythonWhitespace := List.elem_iff.mp h3
  have h6 := ws_entries_not_cjk c h5
  rw [h] at h6
  exact Bool.noConfusion h6

/-- With the default configuration (ignore_punctuation = True), every CJK
character of the input is emitted as its own one-character unit at its own
offset. -/
theorem splitWordsGo_cjk_mem :
    ∀ (rest : List Char) (i start : Nat) (cur : List Char) (j : Nat)
      (hj : j < rest.length),
    is_chinese_char (rest.get ⟨j, hj⟩) = true →
    ([rest.get ⟨j, hj⟩], i + j, i + j + 1) ∈ splitWordsGo true i start cur rest := by
  intro rest
  induction rest with
  | nil =>
    intro i start cur j hj
    exact absurd hj (by simp)
  | cons c rest ih =>
    intro i start cur j hj hcjk
    cases j with
    | zero =>
      have hc : (c :: rest).get ⟨0, hj⟩ = c := rfl
      rw [hc] at hcjk ⊢
      rw [splitWordsGo]
      rw [if_neg (by simp [cjk_not_punct hcjk]), if_neg (by simp),
        if_pos hcjk]
      rw [Nat.add_zero]
      by_cases hcur : cur = []
      · simp [hcur]
      · simp [hcur]
    | succ m =>
      have hm : m < rest.length := by simpa using hj
      have hget : (c :: rest).get ⟨m + 1, hj⟩ = rest.get ⟨m, hm⟩ := rfl
      rw [hget] at hcjk ⊢
      have harith : i + (m + 1) = (i + 1) + m := by omega
      rw [harith]
      rw [splitWordsGo]
      by_cases h1 : (true && is_punctuation c) = true
      · rw [if_pos h1]
        exact List.mem_append_right _ (ih (i + 1) start [] m hm hcjk)
      · rw [if_neg h1]
        rw [if_neg (by simp)]
        by_cases h3 : is_chinese_char c = true
        · rw [if_pos h3]
          refine List.mem_append_right _ ?_
          exact List.mem_cons_of_mem _ (ih (i + 1) (i + 1) [] m hm hcjk)
        · rw [if_neg h3]
          by_cases h4 : pyIsSpace c = true
          · rw [if_pos h4]
            by_cases hcur : cur = []
            · rw [if_neg (fun h => h (by rw [hcur]))]
              exact ih (i + 1) start [] m hm hcjk
            · rw [if_pos hcur]
              exact List.mem_cons_of_mem _ (ih (i + 1) (i + 1) [] m hm hcjk)
          · rw [if_neg h4]
            by_cases hcur : cur = []
            · rw [if_pos hcur]
              exact ih (i + 1) i [c] m hm hcjk
            · rw [if_neg hcur]
              exact ih (i + 1) start (cur ++ [c]) m hm hcjk

/-- With the default configuration, no emitted unit contains a whitespace
character (whitespace only terminates words, it is never part of one). -/
theorem splitWordsGo_no_space :
    ∀ (rest : List Char) (i start : Nat) (cur : List Char),
    (∀ c ∈ cur, pyIsSpace c = false) →
    ∀ t ∈ splitWordsGo true i start cur rest, ∀ c ∈ t.1, pyIsSpace c = false := by
  intro rest
  induction rest with
  | nil =>
    intro i start cur hcur t ht
    by_cases hc : cur = []
    · simp [splitWordsGo, hc] at ht
    · simp only [splitWordsGo, if_pos hc, List.mem_singleton] at ht
      subst ht
      exact hcur
  | cons c rest ih =>
    intro i start cur hcur t ht
    rw [splitWordsGo] at ht
    by_cases h1 : (true && is_punctuation c) = true
    · rw [if_pos h1] at ht
      rcases List.mem_append.mp ht with h2 | h2
      · by_cases hc : cur = []
        · simp [hc] at h2
        · rw [if_pos hc] at h2
          simp only [List.mem_singleton] at h2
          subst h2
          exact hcur
      · exact ih (i + 1) start [] (by simp) t h2
    · rw [if_neg h1, if_neg (by simp)] at ht
      by_cases h3 : is_chinese_char c = true
      · rw [if_pos h3] at ht
        rcases List.mem_append.mp ht with h2 | h2
        · by_cases hc : cur = []
          · simp [hc] at h2
          · rw [if_pos hc] at h2
            simp only [List.mem_singleton] at h2
            subst h2
            exact hcur
        · rcases List.mem_cons.mp h2 with h5 | h5
          · subst h5
            intro d hd
            have hdc : d = c := by simpa using hd
            rw [hdc]
            exact cjk_not_space h3
          · exact ih (i + 1) (i + 1) [] (by simp) t h5
      · rw [if_neg h3] at ht
        by_cases h4 : pyIsSpace c = true
        · rw [if_pos h4] at ht
          by_cases hc : cur = []
          · rw [if_neg (fun h => h (by rw [hc]))] at ht
            exact ih (i + 1) start [] (by simp) t ht
          · rw [if_pos hc] at ht
            rcases List.mem_cons.mp ht with h5 | h5
            · subst h5
              exact hcur
            · exact ih (i + 1) (i + 1) [] (by simp) t h5
        · rw [if_neg h4] at ht
          have hcns : pyIsSpace c = false := by
            cases h5 : pyIsSpace c
            · rfl
            · exact absurd h5 h4
          by_cases hc : cur = []
          · rw [if_pos hc] at ht
            refine ih (i + 1) i [c] ?_ t ht
            intro d hd
            have hdc : d = c := by simpa using hd
            rw [hdc]
            exact hcns
          · rw [if_neg hc] at ht
            refine ih (i + 1) start (cur ++ [c]) ?_ t ht
            intro d hd
            rcases List.mem_append.mp hd with h5 | h5
            · exact hcur d h5
            · have hdc : d = c := by simpa using h5
              rw [hdc]
              exact hcns

/-
The streaming coordinator invariant: nothing ever closes the audio queue.
-/

theorem v2_reachable_draining :
    ∀ s, V2Reachable s →
      s.queueClosed = false ∧ s.outputPhase = OutputPhase.draining := by
  intro s h
  induction h with
  | init => exact ⟨rfl, rfl⟩
  | step hr hstep ih =>
    obtain ⟨hq, hp⟩ := ih
    cases hstep with
    | dispatchFrame h => exact ⟨hq, hp⟩
    | synthDone => exact ⟨hq, hp⟩
    | setCompleteEvent h => exact ⟨hq, hp⟩
    | outputRecv n hp2 hn => exact ⟨hq, hp⟩
    | outputLoopEnd hp2 hq2 hc =>
      rw [hq] at hc
      exact absurd hc (by simp)
    | outputAwaitDone hp2 hc =>
      rw [hp] at hp2
      exact absurd hp2 (by simp)
    | outputClose hp2 =>
      rw [hp] at hp2
      exact absurd hp2 (by simp)

/-
Validation of the TTS constructors.
-/

theorem pythonOrKey_eq_none_iff (apiKey env : Option String) :
    pythonOrKey apiKey env = none ↔
      ((apiKey = none ∨ apiKey = some "") ∧ env = none) := by
  cases apiKey with
  | none => simp [pythonOrKey]
  | some s =>
    by_cases hs : s = ""
    · subst hs
      simp [pythonOrKey]
    · simp [pythonOrKey, hs]

theorem ttsInit_error_iff (volume : Int) (rate pitch : ℚ)
    (apiKey env : Option String) :
    (∃ e, ttsInit volume rate pitch apiKey env = Except.error e) ↔
      (volume < 0 ∨ 100 < volume ∨ rate < 1 / 2 ∨ 2 < rate ∨
        pitch < 1 / 2 ∨ 2 < pitch ∨
        ((apiKey = none ∨ apiKey = some "") ∧ env = none)) := by
  unfold ttsInit
  by_cases h1 : 0 ≤ volume ∧ volume ≤ 100
  · rw [if_neg (not_not_intro h1)]
    by_cases h2 : (1 : ℚ) / 2 ≤ rate ∧ rate ≤ 2
    · rw [if_neg (not_not_intro h2)]
      by_cases h3 : (1 : ℚ) / 2 ≤ pitch ∧ pitch ≤ 2
      · rw [if_neg (not_not_intro h3)]
        cases hk : pythonOrKey apiKey env with
        | none =>
          apply iff_of_true ⟨"DashScope API key is required", rfl⟩
          have := (pythonOrKey_eq_none_iff apiKey env).mp hk
          tauto
        | some k =>
          apply iff_of_false
          · rintro ⟨e, he⟩
            simp at he
          · intro hcon
            rcases hcon with h | h | h | h | h | h | h
            · omega
            · omega
            · exact absurd h2.1 (by linarith)
            · exact absurd h2.2 (by linarith)
            · exact absurd h3.1 (by linarith)
            · exact absurd h3.2 (by linarith)
            · exact absurd ((pythonOrKey_eq_none_iff apiKey env).mpr h)
                (by rw [hk]; simp)
      · rw [if_pos h3]
        apply iff_of_true ⟨"Pitch must be between 0.5 and 2.0", rfl⟩
        rw [not_and_or, not_le, not_le] at h3
        tauto
    · rw [if_pos h2]
      apply iff_of_true ⟨"Rate must be between 0.5 and 2.0", rfl⟩
      rw [not_and_or, not_le, not_le] at h2
      tauto
  · rw [if_pos h1]
    apply iff_of_true ⟨"Volume must be between 0 and 100", rfl⟩
    have : volume < 0 ∨ 100 < volume := by omega
    tauto

theorem ttsV2Init_error_iff (volume : Int) (rate pitch : ℚ)
    (apiKey env : Option String) :
    (∃ e, ttsV2Init volume rate pitch apiKey env = Except.error e) ↔
      (volume < 0 ∨ 100 < volume ∨ rate < 1 / 2 ∨ 2 < rate ∨
        pitch < 1 / 2 ∨ 2 < pitch ∨
        ((apiKey = none ∨ apiKey = some "") ∧ env = none)) := by
  unfold ttsV2Init
  by_cases h1 : 0 ≤ volume ∧ volume ≤ 100
  · rw [if_neg (not_not_intro h1)]
    by_cases h2 : (1 : ℚ) / 2 ≤ rate ∧ rate ≤ 2
    · rw [if_neg (not_not_intro h2)]
      by_cases h3 : (1 : ℚ) / 2 ≤ pitch ∧ pitch ≤ 2
      · rw [if_neg (not_not_intro h3)]
        cases hk : pythonOrKey apiKey env with
        | none =>
          apply iff_of_true ⟨"DashScope API key is required", rfl⟩
          have := (pythonOrKey_eq_none_iff apiKey env).mp hk
          tauto
        | some k =>
          apply iff_of_false
          · rintro ⟨e, he⟩
            simp at he
          · intro hcon
            rcases hcon with h | h | h | h | h | h | h
            · omega
            · omega
            · exact absurd h2.1 (by linarith)
            · exact absurd h2.2 (by linarith)
            · exact absurd h3.1 (by linarith)
            · exact absurd h3.2 (by linarith)
            · exact absurd ((pythonOrKey_eq_none_iff apiKey env).mpr h)
                (by rw [hk]; simp)
      · rw [if_pos h3]
        apply iff_of_true ⟨"Pitch must be between 0.5 and 2.0", rfl⟩
        rw [not_and_or, not_le, not_le] at h3
        tauto
    · rw [if_pos h2]
      apply iff_of_true ⟨"Rate must be between 0.5 and 2.0", rfl⟩
      rw [not_and_or, not_le, not_le] at h2
      tauto
  · rw [if_pos h1]
    apply iff_of_true ⟨"Volume must be between 0 and 100", rfl⟩
    have : volume < 0 ∨ 100 < volume := by omega
    tauto

/-
Claim theorems.
-/

/-- C1: for every input string and every min_sentence_len, the concatenation
of the sentences returned by ChineseSentenceTokenizer.tokenize preserves the
sequence of non-whitespace characters of the input, in order, with no
character dropped or duplicated (the tokenizer only strips whitespace and
inserts single-space separators). -/
theorem sentence_tokenize_preserves_nonspace :
    ∀ (text : List Char) (minLen : Int),
    nonSpace (sentTokenize minLen text).flatten = nonSpace text := by
  intro text minLen
  unfold sentTokenize
  rw [nonSpace_mergeGo, nonSpace_split_sentences]
  rfl

/-- C2 counterexample: with default options (min_sentence_len = 10), tokenize
on `你好。再见。` returns one merged sentence, not the two sentences the claim
states. -/
theorem sentence_tokenize_quote_example_counterexample :
    (sentTokenize 10 (String.toList "你好。再见。")).length ≠ 2 := by decide

/-- C2 (amended): with default options, tokenize on `“你好。再见”。` returns
exactly one sentence, namely `“你好。 再见”。` — the terminator inside the
curly quotes does split at the raw stage, because the curly quotes are not in
the quote-pair table, and the merge step rejoins the two short raw sentences
with a space — and tokenize on `你好。再见。` also returns exactly one merged
sentence `你好。 再见。`; the raw splitter returns two sentences for both
inputs. -/
theorem sentence_tokenize_quote_example_merged :
    sentTokenize 10 (String.toList "“你好。再见”。") =
      [String.toList "“你好。 再见”。"] ∧
    sentTokenize 10 (String.toList "你好。再见。") =
      [String.toList "你好。 再见。"] ∧
    split_sentences (String.toList "“你好。再见”。") =
      [String.toList "“你好。", String.toList "再见”。"] ∧
    split_sentences (String.toList "你好。再见。") =
      [String.toList "你好。", String.toList "再见。"] := by decide

/-- C3: in the transition system of SynthesizeStream._main_task for a
normally-driven request, no reachable state has the audio queue closed and
the output stage never finishes: the only close of _callback_queue in the
code is in the finally of audio_output_task itself, which can only run after
the async-for over that same queue has ended, which requires the queue to be
closed.  The stream therefore never reaches DONE, contradicting the spec. -/
theorem v2_stream_output_never_finishes :
    ∀ s, V2Reachable s →
      s.queueClosed = false ∧ s.outputPhase ≠ OutputPhase.finished := by
  intro s h
  obtain ⟨hq, hp⟩ := v2_reachable_draining s h
  exact ⟨hq, by rw [hp]; simp⟩

/-- C3 witness: the theorem applied to the initial state. -/
theorem v2_stream_output_never_finishes_witness :
    v2Init.queueClosed = false ∧ v2Init.outputPhase ≠ OutputPhase.finished :=
  v2_stream_output_never_finishes v2Init V2Reachable.init

/-- C4 counterexample: with default options, _is_sentence_complete on
`他说：“好的。”` returns false, not true as the claim states (the final
character `”` is not in sentence_ends). -/
theorem is_sentence_complete_example_counterexample :
    is_sentence_complete (String.toList "他说：“好的。”") = false := by decide

/-- C4 (amended): _is_sentence_complete returns false for `他说：“好的。”`
(the text does not end with a terminator) and true for `他说：“好的。`
(ends with `。`, and the curly quote `“` is not tracked by the quote-pair
stack, so the stack is empty). -/
theorem is_sentence_complete_example_actual :
    is_sentence_complete (String.toList "他说：“好的。”") = false ∧
    is_sentence_complete (String.toList "他说：“好的。") = true := by decide

/-- C5: for every input string and every min_sentence_len, tokenize equals
the greedy merge of the raw split described by the spec: raw sentences are
accumulated in order, joined by a single space, a merged group is emitted as
soon as its accumulated length reaches min_sentence_len, and a non-empty
merged-but-still-short remainder at end of input is emitted as the final
sentence. -/
theorem tokenize_eq_greedy_merge_spec :
    ∀ (text : List Char) (minLen : Int),
    sentTokenize minLen text = greedyMergeSpec minLen [] (split_sentences text) :=
  fun text minLen =>
    mergeGo_eq_greedy minLen (split_sentences text) [] []
      (split_sentences_stripped text) (by simp) (fun _ => rfl)
      (fun h => absurd rfl h)

/-- C6: with default options, tokenize on `我爱Python3` returns exactly
`["我", "爱", "Python3"]`; in general every CJK character (U+4E00 - U+9FFF)
is emitted as its own one-character unit at its own offset, terminating any
in-progress word, and whitespace terminates the current word and emits
nothing for itself (no emitted unit contains a whitespace character). -/
theorem word_tokenize_cjk_and_latin :
    wordTokenize true (String.toList "我爱Python3") =
      [String.toList "我", String.toList "爱", String.toList "Python3"] ∧
    (∀ (text : List Char) (j : Nat) (hj : j < text.length),
      is_chinese_char (text.get ⟨j, hj⟩) = true →
      ([text.get ⟨j, hj⟩], j, j + 1) ∈ split_words true text) ∧
    (∀ (text : List Char), ∀ t ∈ split_words true text, ∀ c ∈ t.1,
      pyIsSpace c = false) := by
  refine ⟨by decide, ?_, ?_⟩
  · intro text j hj hc
    have hne : text ≠ [] := by
      intro h
      rw [h] at hj
      exact absurd hj (by simp)
    unfold split_words
    rw [if_neg hne]
    simpa using splitWordsGo_cjk_mem text 0 0 [] j hj hc
  · intro text t ht c hc
    unfold split_words at ht
    by_cases hne : text = []
    · rw [if_pos hne] at ht
      simp at ht
    · rw [if_neg hne] at ht
      exact splitWordsGo_no_space text 0 0 [] (by simp) t ht c hc

/-- C6 witness: the CJK-membership part applied to the first character of
`我爱Python3`. -/
theorem word_tokenize_cjk_and_latin_witness :
    ([ '我' ], 0, 1) ∈ split_words true (String.toList "我爱Python3") :=
  word_tokenize_cjk_and_latin.2.1 (String.toList "我爱Python3") 0
    (by decide) (by decide)

/-- C7 counterexample: constructing TTS with volume 50, rate 1, pitch 1 — all
in range — and api_key the empty string with the environment variable unset
raises, although the claim says an error occurs only when the argument is
None (Python `or` treats the empty string as falsy). -/
theorem tts_init_validation_counterexample :
    ttsInit 50 1 1 (some "") none =
      Except.error "DashScope API key is required" ∧
    ¬((50 : Int) < 0 ∨ 100 < (50 : Int) ∨ (1 : ℚ) < 1 / 2 ∨ 2 < (1 : ℚ) ∨
      (1 : ℚ) < 1 / 2 ∨ 2 < (1 : ℚ) ∨
      ((some "" : Option String) = none ∧ (none : Option String) = none)) := by
  constructor
  · norm_num [ttsInit, pythonOrKey]
  · intro h
    rcases h with h | h | h | h | h | h | h
    · omega
    · omega
    · norm_num at h
    · norm_num at h
    · norm_num at h
    · norm_num at h
    · simp at h

/-- C7 (amended): constructing TTS or TTSV2 fails precisely when volume is
outside 0-100, rate is outside 0.5-2.0, pitch is outside 0.5-2.0, or no API
key is available, where "no API key" means the argument is None or the empty
string while the environment variable is unset; synthesize re-runs no
validation (it always succeeds on constructed options). -/
theorem tts_init_validation_amended :
    ∀ (volume : Int) (rate pitch : ℚ) (apiKey env : Option String),
    ((∃ e, ttsInit volume rate pitch apiKey env = Except.error e) ↔
      (volume < 0 ∨ 100 < volume ∨ rate < 1 / 2 ∨ 2 < rate ∨
        pitch < 1 / 2 ∨ 2 < pitch ∨
        ((apiKey = none ∨ apiKey = some "") ∧ env = none))) ∧
    ((∃ e, ttsV2Init volume rate pitch apiKey env = Except.error e) ↔
      (volume < 0 ∨ 100 < volume ∨ rate < 1 / 2 ∨ 2 < rate ∨
        pitch < 1 / 2 ∨ 2 < pitch ∨
        ((apiKey = none ∨ apiKey = some "") ∧ env = none))) ∧
    (∀ (opts : TTSOptions) (text : List Char),
      ttsSynthesize opts text = Except.ok ⟨text, opts⟩) :=
  fun volume rate pitch apiKey env =>
    ⟨ttsInit_error_iff volume rate pitch apiKey env,
     ttsV2Init_error_iff volume rate pitch apiKey env,
     fun _ _ => rfl⟩

/-- C8: both one-shot tokenizers are total functions of the input (their
embeddings are structurally recursive Lean functions, defined on every
string), and on the empty string each returns the empty sequence. -/
theorem tokenizers_total_empty :
    split_sentences [] = [] ∧
    (∀ minLen : Int, sentTokenize minLen [] = []) ∧
    (∀ ip : Bool, split_words ip [] = []) ∧
    (∀ ip : Bool, wordTokenize ip [] = []) :=
  ⟨rfl, fun _ => rfl, fun _ => rfl, fun _ => rfl⟩

/-- C9: every tuple (word, start, end) returned by _split_words satisfies
0 <= start < end <= len(text) and text[start:end] == word, and consecutive
tuples do not overlap (each end offset is at most the next start offset). -/
theorem split_words_offsets_sound :
    ∀ (ip : Bool) (text : List Char),
    (∀ t ∈ split_words ip text,
      0 ≤ t.2.1 ∧ t.2.1 < t.2.2 ∧ t.2.2 ≤ text.length ∧
      pySlice text t.2.1 t.2.2 = t.1) ∧
    List.Chain' (fun a b => a.2.2 ≤ b.2.1) (split_words ip text) := by
  intro ip text
  unfold split_words
  by_cases hne : text = []
  · rw [if_pos hne]
    exact ⟨by simp, by simp⟩
  · rw [if_neg hne]
    obtain ⟨hm, hc⟩ := splitWordsGo_sound ip text [] 0 []
      (by simp) (fun h => absurd rfl h)
    simp only [List.length_nil, List.nil_append] at hm hc
    refine ⟨?_, hc⟩
    intro t ht
    obtain ⟨_, h2, h3, h4⟩ := hm t ht
    exact ⟨Nat.zero_le _, h2, by simpa using h3, h4⟩

/-- C9 witness: the theorem applied to `我爱Python3` and its first tuple. -/
theorem split_words_offsets_sound_witness :
    0 ≤ (0 : Nat) ∧ (0 : Nat) < 1 ∧ 1 ≤ (String.toList "我爱Python3").length ∧
      pySlice (String.toList "我爱Python3") 0 1 = String.toList "我" :=
  (split_words_offsets_sound true (String.toList "我爱Python3")).1
    (String.toList "我", 0, 1) (by decide)

/-- C10: every sentence returned by _split_sentences and by tokenize is
non-empty and carries no leading or trailing whitespace (it equals its own
strip). -/
theorem sentence_outputs_nonempty_stripped :
    ∀ (text : List Char) (minLen : Int),
    (∀ s ∈ split_sentences text, s ≠ [] ∧ pyStrip s = s) ∧
    (∀ s ∈ sentTokenize minLen text, s ≠ [] ∧ pyStrip s = s) := by
  intro text minLen
  refine ⟨split_sentences_stripped text, ?_⟩
  intro s hs
  exact mergeGo_stripped minLen (split_sentences text) []
    (split_sentences_stripped text) (Or.inl rfl) s hs

/-- C10 witness: the theorem applied to `你好。` and its single output. -/
theorem sentence_outputs_nonempty_stripped_witness :
    String.toList "你好。" ≠ [] ∧
      pyStrip (String.toList "你好。") = String.toList "你好。" :=
  (sentence_outputs_nonempty_stripped (String.toList "你好。") 10).2
    (String.toList "你好。") (by decide)
